import Mathlib

set_option maxRecDepth 100000

/-!
Verification of the Mastermind solver core found in `src/js/application.js`.

The JavaScript core is shallowly embedded:

* codes are `List Char` (the JS code stores codes as arrays of one-character
  strings, or as strings that are split back into arrays; both are modelled by
  the character list, under which string equality and `join('')` equality
  coincide);
* JS array indexing `a[i]` is modelled by `List.getD` with a default; all
  indices used by the embedded code are in bounds for the states the theorems
  talk about;
* the random sources (`Math.random`, underscore's `_.sample`) are modelled by
  explicit parameters: the random values and the sampled list become arguments,
  the latter constrained by `IsSample`, which captures exactly what underscore
  guarantees (`_.sample(l, n)` is `shuffle(l).slice(0, n)`: a subpermutation of
  `l` of length `min n l.length`);
* underscore's `_.uniq` (keep the first occurrence) is `uniqFirst`, `_.without`
  is a filter, `_.difference` is a filter over `allCodes`, and
  `_.union(a, b)` is `uniqFirst (a ++ b)`.
-/

/-! ### Global constants (application.js lines 8-21) -/

def NUM_SYMBOLS : Nat := 6

def NUM_FIELDS : Nat := 4

def SYMBOLS : List Char := ['A', 'B', 'C', 'D', 'E', 'F']

/-- Source: `MUTATION_PROBABILITY = 0.2`. Probabilities are exact decimal
literals in the source, modelled as rationals. -/
def MUTATION_PROBABILITY : ℚ := 0.2

/-- Source: `PERMUTATION_PROBABILITY = 0.1`. -/
def PERMUTATION_PROBABILITY : ℚ := 0.1

/-- Source: `INVERSION_PROBABILITY = 0.05`. -/
def INVERSION_PROBABILITY : ℚ := 0.05

def MAXGEN : Int := 250

def POPULATION_SIZE : Nat := 150

def SET_SIZE : Nat := 110

def FIT_A : Nat := 1

def FIT_B : Nat := 2

/-! ### Code space (`variations`, `allCodes`) -/

/-- Embedding of `variations(symbols, depth, variation, results)`: the source
recurses over the symbols in order, pushing each completed variation
(depth 0) onto `results`; the flattened map reproduces that push order. -/
def variations (symbols : List Char) : Nat → List Char → List (List Char)
  | 0, variation => [variation]
  | depth + 1, variation =>
    (symbols.map fun sym => variations symbols depth (variation ++ [sym])).flatten

/-- Source: `var allCodes = []; variations(SYMBOLS, NUM_FIELDS, [], allCodes);`. -/
def allCodes : List (List Char) := variations SYMBOLS NUM_FIELDS []

/-! ### Random helpers and genetic operators -/

/-- Embedding of `shouldDo(probability)`; the call to `Math.random()` becomes
the explicit argument `randomValue`. -/
def shouldDo (randomValue probability : ℚ) : Bool :=
  randomValue ≤ probability

/-- Embedding of `Combination.prototype.crossover`; the randomly chosen
crossover point becomes an explicit argument. `slice(0, p).concat(slice(p))`
is `take p ++ drop p`. -/
def crossover (code other : List Char) (crossoverPoint : Nat) : List (List Char) :=
  [code.take crossoverPoint ++ other.drop crossoverPoint,
   other.take crossoverPoint ++ code.drop crossoverPoint]

/-- Embedding of `Combination.prototype.mutate`; the random position and the
randomly sampled replacement symbol become explicit arguments. -/
def mutate (code : List Char) (position : Nat) (newValue : Char) : List Char :=
  code.set position newValue

/-- Embedding of `Combination.prototype.permutate`: swap the symbols at the two
randomly sampled positions (explicit arguments here). -/
def permutate (code : List Char) (p q : Nat) : List Char :=
  let a := code.getD p '?'
  let b := code.getD q '?'
  (code.set q a).set p b

/-- Embedding of `Combination.prototype.inverse`. -/
def inverse (code : List Char) : List Char :=
  code.reverse

/-! ### Scoring oracle (`testCode`, lines 207-229) -/

/-- JS indexing `l[i]` on a code array, with an arbitrary default; every use in
the embedded algorithms stays inside the bounds relevant to the theorems. -/
def getS (l : List Char) (i : Nat) : Char := l.getD i '?'

/-- Embedding of the inner `for(j)` loop of `testCode`'s second pass: find the
first position `j` with `i != j && 0 == marked[j] && combination[i] ==
solution[j]` (the loop breaks at the first hit). -/
def findJ (c s : List Char) (i : Nat) (marked : List Bool) : Option Nat :=
  (List.range NUM_FIELDS).find? fun j =>
    decide (i ≠ j) && !(marked.getD j true) && (getS c i == getS s j)

/-- Embedding of one iteration of `testCode`'s second pass: skip exact-match
positions, otherwise mark the first matching unmarked solution position and
count a partial match. -/
def pass2step (c s : List Char) (st : Nat × List Bool) (i : Nat) : Nat × List Bool :=
  if getS c i == getS s i then st
  else
    match findJ c s i st.2 with
    | some j => (st.1 + 1, st.2.set j true)
    | none => st

/-- Embedding of `testCode(combination, solution)`. The first pass counts the
positions with `combination[i] == solution[i]` and marks them; the second pass
runs `pass2step` over the remaining positions. Returns `[a, b]` as a pair. -/
def testCode (c s : List Char) : Nat × Nat :=
  let a := ((List.range NUM_FIELDS).filter fun i => getS c i == getS s i).length
  let marked := (List.range NUM_FIELDS).map fun i => getS c i == getS s i
  let st := (List.range NUM_FIELDS).foldl (pass2step c s) (0, marked)
  (a, st.1)

/-- Embedding of the win test in `playNextGuess`:
`if(blackNum == NUM_FIELDS) { alert("Win!"); return; }`. -/
def winCheck (blackNum : Nat) : Bool :=
  blackNum == NUM_FIELDS

/-! ### Candidates and fitness (`Combination`, lines 67-149) -/

/-- One element of `previousGuesses`: `{code: aiGuess, x: blackNum, y: whiteNum}`. -/
structure GuessRecord where
  code : List Char
  x : Nat
  y : Nat

/-- Embedding of the `Combination` constructor state: a fresh combination has
`fitness = 0` and `eligible = false`. -/
structure Combination where
  code : List Char
  fitness : Nat
  eligible : Bool

/-- Absolute difference, the embedding of `Math.abs(a - b)` on the feedback
counters. -/
def absDiff (a b : Nat) : Nat := ((a : Int) - (b : Int)).natAbs

/-- Embedding of `Combination.prototype.calculateFitness(prevGuesses)`:
accumulate `xDifference`, `yDifference` and `slickValue` over the indexed
history, set `eligible` when both difference totals are zero, and store the
weighted fitness. -/
def Combination.calculateFitness (self : Combination) (prevGuesses : List GuessRecord) :
    Combination :=
  let t := prevGuesses.enum.foldl
    (fun (acc : Nat × Nat × Nat) p =>
      let testResponse := testCode self.code p.2.code
      (acc.1 + absDiff testResponse.1 p.2.x,
       acc.2.1 + absDiff testResponse.2 p.2.y,
       acc.2.2 + p.1))
    (0, 0, 0)
  { self with
    eligible := if t.1 = 0 ∧ t.2.1 = 0 then true else self.eligible,
    fitness := FIT_A * t.1 + t.2.1 + FIT_B * NUM_FIELDS * t.2.2 }

/-! ### Population generation step (lines 272-308) -/

/-- Embedding of the eligible-set accumulation loop at the top of
`Population.prototype.generation`: every member is evaluated and the codes of
eligible members are pushed unless already present (`indexOf === -1`). -/
def updateEiSet (members : List Combination) (prevGuesses : List GuessRecord)
    (eiSet : List (List Char)) : List (List Char) :=
  members.foldl
    (fun es m =>
      let evaluated := m.calculateFitness prevGuesses
      if evaluated.eligible then
        (if es.contains evaluated.code then es else es ++ [evaluated.code])
      else es)
    eiSet

/-- Embedding of the control flow at the head of
`Population.prototype.generation` together with the eligible-set update of the
generation body. Returns `(halted, eiSet')`: `halted = true` means the
function invoked `callback()` and returned without running the body (in which
case the eligible set is left unchanged); otherwise the body runs and the
eligible set is updated. The crossover/refill part of the body touches only
`this.members` and is modelled separately by `refillMembers`. -/
def generationStep (members : List Combination) (prevGuesses : List GuessRecord)
    (eiSet : List (List Char)) (maxGen : Int) : Bool × List (List Char) :=
  if maxGen ≤ 0 ∨ eiSet.length = SET_SIZE then
    if ¬(prevGuesses.length > 1 ∧ eiSet.length < 1) then (true, eiSet)
    else (false, updateEiSet members prevGuesses eiSet)
  else (false, updateEiSet members prevGuesses eiSet)

/-! ### Population refill (lines 296-302) -/

/-- Embedding of `this.members.splice(0, 2, a, b)`: replace the first two
slots. -/
def splice2 (members : List (List Char)) (c1 c2 : List Char) : List (List Char) :=
  c1 :: c2 :: members.drop 2

/-- Worker for `uniqFirst`, carrying the set of already-seen values. -/
def uniqAux {α : Type} [DecidableEq α] (seen : List α) : List α → List α
  | [] => []
  | a :: l => if a ∈ seen then uniqAux seen l else a :: uniqAux (a :: seen) l

/-- Embedding of underscore's `_.uniq`: keep the first occurrence of each
value, preserving order. -/
def uniqFirst {α : Type} [DecidableEq α] (l : List α) : List α :=
  uniqAux [] l

/-- Embedding of `_.difference(allCodes, uniqueCodes)`: the codes of the code
space not currently in the population. -/
def codeDifference (uniqueCodes : List (List Char)) : List (List Char) :=
  allCodes.filter fun c => decide (c ∉ uniqueCodes)

/-- Embedding of the requested refill amount `this.size - uniqueCodes.length`. -/
def refillCount (size : Nat) (uniqueCodes : List (List Char)) : Nat :=
  size - uniqueCodes.length

/-- Specification of underscore's `_.sample(l, n)` (`shuffle(l).slice(0, n)`):
the output is a subpermutation of `l` whose length is `min n l.length` — in
particular, when more elements are requested than exist, the whole list is
returned and no error is raised. -/
def IsSample (l out : List (List Char)) (n : Nat) : Prop :=
  List.Subperm out l ∧ out.length = min n l.length

/-- Embedding of the member-refill tail of `Population.prototype.generation`:
splice the two children over the first two slots, deduplicate the codes
(`_.uniq` over the joined code strings), and union with the freshly sampled
codes (`_.union(uniqueCodes, newMembers)` is `uniq` of the concatenation).
The resulting list of codes is mapped back to fresh `Combination`s by the
source; the population's codes are exactly this list. -/
def refillMembers (members : List (List Char)) (c1 c2 : List Char)
    (newMembers : List (List Char)) : List (List Char) :=
  uniqFirst (uniqFirst (splice2 members c1 c2) ++ newMembers)

/-! ### Guess selection (`chooseNextGuess`, lines 316-338) -/

/-- Embedding of the split-sum computed for one candidate `g` inside
`chooseNextGuess`: over every reference `r` in `_.without(eligible, g)` and
every `k` in `_.without(searchSpace, r)`, count the pairs whose scores differ.
The source compares `testCode(..).join('')` strings; since both feedback
components are at most `NUM_FIELDS`, the joined strings are equal exactly when
the pairs are equal. -/
def splitSum (eligible : List (List Char)) (g : List Char) : Nat :=
  let searchSpace := eligible.filter fun x => x != g
  (searchSpace.map fun r =>
    ((searchSpace.filter fun x => x != r).filter fun k =>
      decide (testCode k r ≠ testCode g r)).length).sum

/-- Embedding of `chooseNextGuess(eligible)`: starting from `max = 0` and
`nextGuess = eligible[0]`, scan the set in order and replace the current best
only on a strictly larger split sum. -/
def chooseNextGuess (eligible : List (List Char)) : List Char :=
  (eligible.foldl
    (fun st g =>
      let sum := splitSum eligible g
      if sum > st.1 then (sum, g) else st)
    (0, eligible.headD [])).2

/-- Largest split sum over the eligible set. -/
def maxSplitSum (eligible : List (List Char)) : Nat :=
  eligible.foldl (fun acc g => max acc (splitSum eligible g)) 0

/-- Reference selector written from the specification's words (§4.5): return
the first member, in enumeration order, attaining the maximum split sum. -/
def firstArgmax (eligible : List (List Char)) : List Char :=
  (eligible.find? fun g => splitSum eligible g == maxSplitSum eligible).getD []

/-! ### Valid codes -/

/-- A code in the sense of the specification: length `NUM_FIELDS`, every
symbol drawn from the alphabet. -/
def isCode (c : List Char) : Prop :=
  c.length = NUM_FIELDS ∧ ∀ x ∈ c, x ∈ SYMBOLS

instance (c : List Char) : Decidable (isCode c) := by
  unfold isCode
  infer_instance

/-! ### Proof-support definitions for the scoring oracle -/

/-- Unmarked positions, in increasing order. -/
def avail (marked : List Bool) : List Nat :=
  (List.range NUM_FIELDS).filter fun j => !(marked.getD j true)

/-- First-match greedy pairing of guess symbols against a pool of solution
symbols; this is what `testCode`'s second pass computes, re-expressed on
symbol lists. -/
def greedy : List Char → List Char → Nat
  | [], _ => 0
  | g :: rest, pool => if g ∈ pool then 1 + greedy rest (pool.erase g) else greedy rest pool

/-- Number of exact positional matches between two codes. -/
def exactCount (c s : List Char) : Nat :=
  ((List.range NUM_FIELDS).filter fun i => getS c i == getS s i).length

/-- Positions (in order) at which the two codes disagree. -/
def mismatch (c s : List Char) : List Nat :=
  (List.range NUM_FIELDS).filter fun i => !(getS c i == getS s i)

/-! ### Concrete states used by counterexamples and witnesses -/

def codeAAAA : List Char := ['A', 'A', 'A', 'A']

def codeAAAB : List Char := ['A', 'A', 'A', 'B']

def codeABCD : List Char := ['A', 'B', 'C', 'D']

/-- A population of `POPULATION_SIZE` pairwise distinct codes over the symbols
B..F (there are 625 such codes), as fresh combinations: the shape of a real
population after `init` when the sample happens to avoid the symbol A. -/
def membersNoA : List Combination :=
  ((allCodes.filter fun c => !(c.contains 'A')).take POPULATION_SIZE).map
    fun c => { code := c, fitness := 0, eligible := false }

/-- History holding the single guess AAAA with recorded feedback (0, 0). -/
def historyAAAA : List GuessRecord :=
  [{ code := codeAAAA, x := 0, y := 0 }]

/-- An oversized population (1300 copies of one code), used to drive the
refill step into code-space exhaustion. -/
def membersBig : List (List Char) :=
  List.replicate 1300 codeAAAA

/-! ### Scoring-oracle lemmas -/

theorem find?_and_filter (l : List α) (p q : α → Bool) :
    l.find? (fun x => q x && p x) = (l.filter q).find? p := by
  induction l with
  | nil => rfl
  | cons h t ih =>
    by_cases hq : q h
    · by_cases hp : p h
      · simp [List.find?, List.filter, hq, hp]
      · simp only [List.find?, List.filter, hq, hp, Bool.and_false]
        simpa [hq, hp] using ih
    · simp only [List.find?, List.filter, hq, Bool.false_and]
      simpa [hq] using ih

theorem find?_congr_mem {l : List α} {p q : α → Bool} (h : ∀ x ∈ l, p x = q x) :
    l.find? p = l.find? q := by
  induction l with
  | nil => rfl
  | cons a t ih =>
    have ha := h a (List.mem_cons_self a t)
    by_cases hp : p a
    · simp [List.find?, hp, ha ▸ hp]
    · have hqa : ¬ q a = true := by rw [← ha]; exact hp
      simp only [List.find?]
      rw [show (p a) = false by simpa using hp, show (q a) = false by simpa using hqa]
      exact ih fun x hx => h x (List.mem_cons_of_mem a hx)

theorem erase_map_of_find? {l : List Nat} {f : Nat → Char} {v : Char} {j : Nat}
    (hnd : l.Nodup) (h : l.find? (fun j => v == f j) = some j) :
    (l.erase j).map f = (l.map f).erase v := by
  induction l with
  | nil => simp at h
  | cons k t ih =>
    by_cases hk : (v == f k)
    · have hj : j = k := by
        simp [List.find?, hk] at h
        exact h.symm
      subst hj
      have hv : f j = v := (eq_of_beq hk).symm
      simp [List.erase_cons_head, hv]
    · have h' : t.find? (fun j => v == f j) = some j := by
        simpa [List.find?, hk] using h
      have hjt : j ∈ t := List.mem_of_find?_eq_some h'
      have hkj : k ≠ j := by
        intro hkj; exact (List.nodup_cons.mp hnd).1 (hkj ▸ hjt)
      have hvk : ¬ v = f k := by simpa using hk
      rw [List.erase_cons_tail, List.map_cons, List.map_cons, List.erase_cons_tail,
        ih (List.nodup_cons.mp hnd).2 h']
      · simpa using fun h => hvk h.symm
      · simpa using hkj

theorem filter_not_mem_erase {l : List Nat} {j : Nat} (hnd : l.Nodup) (p : Nat → Bool)
    (hp : p j = true ∨ j ∉ l) :
    l.filter (fun x => !(x == j) && p x) = (l.filter p).erase j := by
  induction l with
  | nil => rfl
  | cons k t ih =>
    have hnd' := (List.nodup_cons.mp hnd).2
    by_cases hkj : k = j
    · subst hkj
      have hkt : k ∉ t := (List.nodup_cons.mp hnd).1
      have hcong : t.filter (fun x => !(x == k) && p x) = t.filter p := by
        apply List.filter_congr
        intro x hx
        have : ¬ x = k := fun h => hkt (h ▸ hx)
        simp [this]
      rcases hp with hp | hp
      · simp [List.filter, hp, hcong, List.erase_cons_head]
      · exact absurd (List.mem_cons_self k t) hp
    · have hp' : p j = true ∨ j ∉ t := by
        rcases hp with hp | hp
        · exact Or.inl hp
        · exact Or.inr fun h => hp (List.mem_cons_of_mem k h)
      by_cases hpk : p k
      · have : (k ∈ (t.filter p)) ∨ True := Or.inr trivial
        rw [List.filter_cons_of_pos (by simp [hkj, hpk]), List.filter_cons_of_pos hpk,
          List.erase_cons_tail (by simpa using hkj), ih hnd' hp']
      · rw [List.filter_cons_of_neg (by simp [hpk]), List.filter_cons_of_neg (by simpa using hpk)]
        exact ih hnd' hp'

theorem avail_set {marked : List Bool} {j : Nat} (hlen : marked.length = NUM_FIELDS)
    (hj : j < NUM_FIELDS) (hm : marked.getD j true = false) :
    avail (marked.set j true) = (avail marked).erase j := by
  unfold avail
  have hcong : (List.range NUM_FIELDS).filter (fun x => !((marked.set j true).getD x true))
      = (List.range NUM_FIELDS).filter (fun x => !(x == j) && !(marked.getD x true)) := by
    apply List.filter_congr
    intro x hx
    by_cases hxj : x = j
    · subst hxj
      have hxl : x < marked.length := hlen ▸ hj
      have : (marked.set x true).getD x true = true := by
        simp [List.getD_eq_getElem?_getD, List.getElem?_set_self hxl]
      simp only [this, beq_self_eq_true, Bool.not_true, Bool.false_and]
    · have : (marked.set j true).getD x true = marked.getD x true := by
        simp [List.getD_eq_getElem?_getD, List.getElem?_set_ne (fun h => hxj h.symm)]
      simp only [this]
      simp [hxj]
  rw [hcong, filter_not_mem_erase (List.nodup_range NUM_FIELDS)]
  left
  simp only [hm, Bool.not_false]

theorem findJ_eq (c s : List Char) (i : Nat) (marked : List Bool)
    (hguard : (getS c i == getS s i) = false) :
    findJ c s i marked = (avail marked).find? (fun j => getS c i == getS s j) := by
  unfold findJ avail
  have h1 := find?_congr_mem (l := List.range NUM_FIELDS)
    (p := fun j => decide (i ≠ j) && !(marked.getD j true) && (getS c i == getS s j))
    (q := fun j => (!(marked.getD j true)) && (decide (i ≠ j) && (getS c i == getS s j)))
    (by
      intro x hx
      cases h : decide (i ≠ x) <;> cases hm : marked.getD x true <;> simp [h, hm])
  rw [h1, find?_and_filter]
  apply find?_congr_mem
  intro x hx
  by_cases hix : i = x
  · subst hix
    simp [hguard]
  · simp [hix]

theorem pass2_foldl (c s : List Char) (is : List Nat) :
    ∀ (b : Nat) (marked : List Bool), marked.length = NUM_FIELDS →
    (is.foldl (pass2step c s) (b, marked)).1
      = b + greedy ((is.filter fun i => !(getS c i == getS s i)).map (getS c))
              ((avail marked).map (getS s)) := by
  induction is with
  | nil =>
    intro b marked _
    simp [greedy]
  | cons i rest ih =>
    intro b marked hlen
    by_cases hg : (getS c i == getS s i) = true
    · have hstep : pass2step c s (b, marked) i = (b, marked) := by
        simp [pass2step, hg]
      have hfil : (i :: rest).filter (fun i => !(getS c i == getS s i))
          = rest.filter (fun i => !(getS c i == getS s i)) := by
        simp [hg]
      rw [List.foldl_cons, hstep, hfil, ih b marked hlen]
    · have hg' : (getS c i == getS s i) = false := by simpa using hg
      have hfil : (i :: rest).filter (fun i => !(getS c i == getS s i))
          = i :: rest.filter (fun i => !(getS c i == getS s i)) := by
        simp [hg']
      have hfind := findJ_eq c s i marked hg'
      cases hj : (avail marked).find? (fun j => getS c i == getS s j) with
      | none =>
        have hstep : pass2step c s (b, marked) i = (b, marked) := by
          simp [pass2step, hg', hfind, hj]
        have hnotmem : getS c i ∉ (avail marked).map (getS s) := by
          intro hmem
          rcases List.mem_map.mp hmem with ⟨j, hjav, hfeq⟩
          have := List.find?_eq_none.mp hj j hjav
          simp [hfeq] at this
        rw [List.foldl_cons, hstep, hfil, ih b marked hlen, List.map_cons]
        rw [greedy, if_neg hnotmem]
      | some j =>
        have hstep : pass2step c s (b, marked) i = (b + 1, marked.set j true) := by
          simp [pass2step, hg', hfind, hj]
        have hmemj : j ∈ avail marked := List.mem_of_find?_eq_some hj
        have hpj : (getS c i == getS s j) = true := by
          have h := List.find?_some (p := fun j => getS c i == getS s j) hj
          simpa using h
        have hjrange : j ∈ List.range NUM_FIELDS := (List.mem_filter.mp hmemj).1
        have hjlt : j < NUM_FIELDS := List.mem_range.mp hjrange
        have hmarked : marked.getD j true = false := by
          have := (List.mem_filter.mp hmemj).2
          simpa using this
        have hnodup : (avail marked).Nodup := (List.nodup_range NUM_FIELDS).filter _
        have hset : avail (marked.set j true) = (avail marked).erase j :=
          avail_set hlen hjlt hmarked
        have herase : ((avail marked).erase j).map (getS s)
            = ((avail marked).map (getS s)).erase (getS c i) :=
          erase_map_of_find? hnodup hj
        have hmem : getS c i ∈ (avail marked).map (getS s) :=
          List.mem_map.mpr ⟨j, hmemj, (eq_of_beq hpj).symm⟩
        have hlen' : (marked.set j true).length = NUM_FIELDS := by
          rw [List.length_set]; exact hlen
        rw [List.foldl_cons, hstep, hfil, ih (b + 1) (marked.set j true) hlen',
          List.map_cons, greedy, if_pos hmem, hset, herase]
        omega

theorem greedy_eq_card_inter (gs : List Char) : ∀ pool : List Char,
    greedy gs pool = Multiset.card ((gs : Multiset Char) ∩ (pool : Multiset Char)) := by
  induction gs with
  | nil =>
    intro pool
    simp [greedy]
  | cons g rest ih =>
    intro pool
    have hcons : ((g :: rest : List Char) : Multiset Char) = g ::ₘ (rest : Multiset Char) := rfl
    by_cases hmem : g ∈ pool
    · rw [greedy, if_pos hmem, ih (pool.erase g), hcons,
        Multiset.cons_inter_of_pos _ (by exact_mod_cast hmem), Multiset.card_cons,
        ← Multiset.coe_erase]
      omega
    · rw [greedy, if_neg hmem, ih pool, hcons,
        Multiset.cons_inter_of_neg _ (by exact_mod_cast hmem)]

theorem testCode_eq (c s : List Char) :
    testCode c s = (exactCount c s,
      Multiset.card ((((mismatch c s).map (getS c) : List Char) : Multiset Char)
        ∩ (((mismatch c s).map (getS s) : List Char) : Multiset Char))) := by
  dsimp only [testCode]
  have hlen : ((List.range NUM_FIELDS).map fun i => getS c i == getS s i).length = NUM_FIELDS := by
    simp
  have hav : avail ((List.range NUM_FIELDS).map fun i => getS c i == getS s i) = mismatch c s := by
    unfold avail mismatch
    apply List.filter_congr
    intro x hx
    have hxlt : x < NUM_FIELDS := List.mem_range.mp hx
    have hget : (((List.range NUM_FIELDS).map fun i => getS c i == getS s i).getD x true)
        = (getS c x == getS s x) := by
      rw [List.getD_eq_getElem?_getD, List.getElem?_map, List.getElem?_range hxlt]
      rfl
    rw [hget]
  rw [pass2_foldl c s _ 0 _ hlen, hav, greedy_eq_card_inter, Nat.zero_add]
  rfl

theorem char_beq_comm (a b : Char) : (a == b) = (b == a) := by
  by_cases h : a = b
  · subst h; rfl
  · have h' : ¬ b = a := fun hh => h hh.symm
    simp [h, h']

theorem exactCount_comm (c s : List Char) : exactCount c s = exactCount s c := by
  unfold exactCount
  congr 1
  apply List.filter_congr
  intro x _
  exact char_beq_comm (getS c x) (getS s x)

theorem mismatch_comm (c s : List Char) : mismatch c s = mismatch s c := by
  unfold mismatch
  apply List.filter_congr
  intro x _
  rw [char_beq_comm (getS c x) (getS s x)]

theorem testCode_comm (c s : List Char) : testCode c s = testCode s c := by
  rw [testCode_eq c s, testCode_eq s c, exactCount_comm, mismatch_comm c s,
    Multiset.inter_comm]

theorem length_filter_partition (l : List Nat) (p : Nat → Bool) :
    (l.filter p).length + (l.filter fun x => !(p x)).length = l.length := by
  induction l with
  | nil => rfl
  | cons a t ih =>
    by_cases hp : p a
    · rw [List.filter_cons_of_pos hp, List.filter_cons_of_neg (by simp [hp])]
      simp only [List.length_cons]
      omega
    · rw [List.filter_cons_of_neg hp, List.filter_cons_of_pos (by simpa using hp)]
      simp only [List.length_cons]
      omega

theorem testCode_sum_le (c s : List Char) :
    (testCode c s).1 + (testCode c s).2 ≤ NUM_FIELDS := by
  rw [testCode_eq]
  have hinter : Multiset.card ((((mismatch c s).map (getS c) : List Char) : Multiset Char)
      ∩ (((mismatch c s).map (getS s) : List Char) : Multiset Char))
      ≤ (mismatch c s).length := by
    have hle := Multiset.card_le_card (Multiset.inter_le_left
      (s := (((mismatch c s).map (getS c) : List Char) : Multiset Char))
      (((mismatch c s).map (getS s) : List Char) : Multiset Char))
    simpa using hle
  have hpart := length_filter_partition (List.range NUM_FIELDS)
    (fun i => getS c i == getS s i)
  have hrange : (List.range NUM_FIELDS).length = NUM_FIELDS := List.length_range NUM_FIELDS
  have hexact : exactCount c s + (mismatch c s).length = NUM_FIELDS := by
    unfold exactCount mismatch
    rw [← hrange]
    exact hpart
  simp only []
  omega

theorem testCode_fst_eq_iff {c s : List Char} (hc : c.length = NUM_FIELDS)
    (hs : s.length = NUM_FIELDS) :
    (testCode c s).1 = NUM_FIELDS ↔ c = s := by
  have hfst : (testCode c s).1 = exactCount c s := by rw [testCode_eq]
  rw [hfst]
  unfold exactCount
  constructor
  · intro h
    have hsub : List.Sublist ((List.range NUM_FIELDS).filter (fun i => getS c i == getS s i))
        (List.range NUM_FIELDS) := List.filter_sublist _
    have hfull : (List.range NUM_FIELDS).filter (fun i => getS c i == getS s i)
        = List.range NUM_FIELDS := by
      apply hsub.eq_of_length
      rw [h, List.length_range]
    have hall : ∀ i ∈ List.range NUM_FIELDS, (getS c i == getS s i) = true := by
      intro i hi
      exact List.filter_eq_self.mp hfull i hi
    apply List.ext_getElem (hc.trans hs.symm)
    intro i h1 h2
    have hi4 : i < NUM_FIELDS := hc ▸ h1
    have hbeq := hall i (List.mem_range.mpr hi4)
    have hgs : getS c i = getS s i := by simpa using hbeq
    have hcg : getS c i = getElem c i h1 := List.getD_eq_getElem c '?' h1
    have hsg : getS s i = getElem s i h2 := List.getD_eq_getElem s '?' h2
    rw [← hcg, ← hsg, hgs]
  · intro h
    subst h
    have : ∀ i ∈ List.range NUM_FIELDS, (getS c i == getS c i) = true := by
      intro i _
      simp
    rw [List.filter_eq_self.mpr this, List.length_range]

/-! ### Code-space lemmas -/

theorem mem_variations {symbols : List Char} : ∀ {depth : Nat} {variation x : List Char},
    x ∈ variations symbols depth variation ↔
      ∃ w, w.length = depth ∧ (∀ a ∈ w, a ∈ symbols) ∧ x = variation ++ w := by
  intro depth
  induction depth with
  | zero =>
    intro variation x
    constructor
    · intro h
      refine ⟨[], rfl, by simp, ?_⟩
      simpa [variations] using h
    · rintro ⟨w, hw, _, rfl⟩
      have : w = [] := List.length_eq_zero.mp hw
      simp [variations, this]
  | succ d ih =>
    intro variation x
    constructor
    · intro h
      rw [variations, List.mem_flatten] at h
      rcases h with ⟨l, hl, hx⟩
      rcases List.mem_map.mp hl with ⟨sym, hsym, rfl⟩
      rcases ih.mp hx with ⟨w, hwlen, hwmem, rfl⟩
      refine ⟨sym :: w, by simp [hwlen], ?_, by simp⟩
      intro a ha
      rcases List.mem_cons.mp ha with rfl | ha
      · exact hsym
      · exact hwmem a ha
    · rintro ⟨w, hwlen, hwmem, rfl⟩
      cases w with
      | nil => simp at hwlen
      | cons sym w' =>
        rw [variations, List.mem_flatten]
        refine ⟨variations symbols d (variation ++ [sym]), ?_, ?_⟩
        · exact List.mem_map.mpr ⟨sym, hwmem sym (List.mem_cons_self _ _), rfl⟩
        · refine ih.mpr ⟨w', by simpa using hwlen, ?_, by simp⟩
          intro a ha
          exact hwmem a (List.mem_cons_of_mem _ ha)

theorem variations_nodup {symbols : List Char} (hnd : symbols.Nodup) :
    ∀ (depth : Nat) (variation : List Char), (variations symbols depth variation).Nodup := by
  intro depth
  induction depth with
  | zero =>
    intro variation
    simp [variations]
  | succ d ih =>
    intro variation
    rw [variations, List.nodup_flatten]
    constructor
    · intro l hl
      rcases List.mem_map.mp hl with ⟨sym, _, rfl⟩
      exact ih (variation ++ [sym])
    · rw [List.pairwise_map]
      refine hnd.imp ?_
      intro a b hab
      rw [List.disjoint_left]
      intro x hxa hxb
      rcases mem_variations.mp hxa with ⟨w1, _, _, hx1⟩
      rcases mem_variations.mp hxb with ⟨w2, _, _, hx2⟩
      have heq : (variation ++ [a]) ++ w1 = (variation ++ [b]) ++ w2 := by
        rw [← hx1, ← hx2]
      have h2 : variation ++ ([a] ++ w1) = variation ++ ([b] ++ w2) := by
        simpa [List.append_assoc] using heq
      have h3 : [a] ++ w1 = [b] ++ w2 := List.append_cancel_left h2
      exact hab (by simpa using congrArg (fun l => l.headD '?') h3)

theorem allCodes_nodup : allCodes.Nodup :=
  variations_nodup (by decide) NUM_FIELDS []

theorem allCodes_length : allCodes.length = 1296 := by decide

/-! ### Deduplication lemmas -/

theorem mem_uniqAux {α : Type} [DecidableEq α] :
    ∀ (l seen : List α) (x : α), x ∈ uniqAux seen l ↔ x ∈ l ∧ x ∉ seen := by
  intro l
  induction l with
  | nil =>
    intro seen x
    simp [uniqAux]
  | cons a t ih =>
    intro seen x
    by_cases ha : a ∈ seen
    · rw [uniqAux, if_pos ha, ih]
      constructor
      · rintro ⟨hx, hxs⟩
        exact ⟨List.mem_cons_of_mem a hx, hxs⟩
      · rintro ⟨hx, hxs⟩
        rcases List.mem_cons.mp hx with rfl | hx
        · exact absurd ha hxs
        · exact ⟨hx, hxs⟩
    · rw [uniqAux, if_neg ha]
      constructor
      · intro hx
        rcases List.mem_cons.mp hx with rfl | hx
        · exact ⟨List.mem_cons_self _ _, ha⟩
        · rcases (ih (a :: seen) x).mp hx with ⟨hxt, hxs⟩
          refine ⟨List.mem_cons_of_mem a hxt, ?_⟩
          intro hmem
          exact hxs (List.mem_cons_of_mem a hmem)
      · rintro ⟨hx, hxs⟩
        rcases List.mem_cons.mp hx with rfl | hx
        · exact List.mem_cons_self _ _
        · by_cases hxa : x = a
          · subst hxa
            exact List.mem_cons_self _ _
          · refine List.mem_cons_of_mem a ((ih (a :: seen) x).mpr ⟨hx, ?_⟩)
            intro hmem
            rcases List.mem_cons.mp hmem with h | h
            · exact hxa h
            · exact hxs h

theorem uniqAux_nodup {α : Type} [DecidableEq α] :
    ∀ (l seen : List α), (uniqAux seen l).Nodup := by
  intro l
  induction l with
  | nil =>
    intro seen
    simp [uniqAux]
  | cons a t ih =>
    intro seen
    by_cases ha : a ∈ seen
    · rw [uniqAux, if_pos ha]
      exact ih seen
    · rw [uniqAux, if_neg ha]
      refine List.nodup_cons.mpr ⟨?_, ih (a :: seen)⟩
      intro hmem
      exact ((mem_uniqAux t (a :: seen) a).mp hmem).2 (List.mem_cons_self _ _)

theorem uniqAux_length_le {α : Type} [DecidableEq α] :
    ∀ (l seen : List α), (uniqAux seen l).length ≤ l.length := by
  intro l
  induction l with
  | nil =>
    intro seen
    simp [uniqAux]
  | cons a t ih =>
    intro seen
    by_cases ha : a ∈ seen
    · rw [uniqAux, if_pos ha]
      exact Nat.le_succ_of_le (ih seen)
    · rw [uniqAux, if_neg ha]
      simpa using ih (a :: seen)

theorem uniqAux_eq_self {α : Type} [DecidableEq α] :
    ∀ (l seen : List α), l.Nodup → (∀ x ∈ l, x ∉ seen) → uniqAux seen l = l := by
  intro l
  induction l with
  | nil =>
    intro seen _ _
    rfl
  | cons a t ih =>
    intro seen hnd hsep
    have ha : a ∉ seen := hsep a (List.mem_cons_self _ _)
    rw [uniqAux, if_neg ha]
    congr 1
    refine ih (a :: seen) (List.nodup_cons.mp hnd).2 ?_
    intro x hx
    intro hmem
    rcases List.mem_cons.mp hmem with rfl | h
    · exact (List.nodup_cons.mp hnd).1 hx
    · exact hsep x (List.mem_cons_of_mem a hx) h

theorem uniqFirst_nodup {α : Type} [DecidableEq α] (l : List α) : (uniqFirst l).Nodup :=
  uniqAux_nodup l []

theorem mem_uniqFirst {α : Type} [DecidableEq α] (l : List α) (x : α) :
    x ∈ uniqFirst l ↔ x ∈ l := by
  rw [uniqFirst, mem_uniqAux]
  simp

theorem uniqFirst_length_le {α : Type} [DecidableEq α] (l : List α) :
    (uniqFirst l).length ≤ l.length :=
  uniqAux_length_le l []

theorem uniqFirst_eq_self {α : Type} [DecidableEq α] {l : List α} (hnd : l.Nodup) :
    uniqFirst l = l :=
  uniqAux_eq_self l [] hnd (by simp)

/-! ### Refill lemmas -/

theorem length_filter_split {α : Type} (l : List α) (p : α → Bool) :
    (l.filter p).length + (l.filter fun x => !(p x)).length = l.length := by
  induction l with
  | nil => rfl
  | cons a t ih =>
    by_cases hp : p a
    · rw [List.filter_cons_of_pos hp, List.filter_cons_of_neg (by simp [hp])]
      simp only [List.length_cons]
      omega
    · rw [List.filter_cons_of_neg hp, List.filter_cons_of_pos (by simpa using hp)]
      simp only [List.length_cons]
      omega

theorem filter_not_mem_length_ge (l u : List (List Char)) (hnd : l.Nodup) :
    l.length - u.length ≤ (l.filter fun x => decide (x ∉ u)).length := by
  have hpart := length_filter_split l fun x => decide (x ∉ u)
  have hin : (l.filter fun x => !(decide (x ∉ u))).length ≤ u.length := by
    have hnd2 : (l.filter fun x => !(decide (x ∉ u))).Nodup := hnd.filter _
    have hsub : (l.filter fun x => !(decide (x ∉ u))) ⊆ u := by
      intro x hx
      have hmem := (List.mem_filter.mp hx).2
      simpa using hmem
    exact (List.subperm_of_subset hnd2 hsub).length_le
  omega

theorem codeDifference_nodup (u : List (List Char)) : (codeDifference u).Nodup :=
  allCodes_nodup.filter _

theorem mem_codeDifference {u : List (List Char)} {x : List Char}
    (hx : x ∈ codeDifference u) : x ∉ u := by
  have := (List.mem_filter.mp hx).2
  simpa using this

theorem codeDifference_length_ge (u : List (List Char)) :
    allCodes.length - u.length ≤ (codeDifference u).length :=
  filter_not_mem_length_ge allCodes u allCodes_nodup

theorem IsSample.nodup {l out : List (List Char)} {n : Nat}
    (hs : IsSample l out n) (hl : l.Nodup) : out.Nodup := by
  rcases hs.1 with ⟨l2, hperm, hsub⟩
  exact hperm.nodup (hsub.nodup hl)

theorem IsSample.subset {l out : List (List Char)} {n : Nat}
    (hs : IsSample l out n) : out ⊆ l := by
  rcases hs.1 with ⟨l2, hperm, hsub⟩
  intro x hx
  exact hsub.subset (hperm.mem_iff.mpr hx)

theorem refillMembers_spec (size : Nat) (members : List (List Char)) (c1 c2 : List Char)
    (newMembers : List (List Char))
    (hsamp : IsSample (codeDifference (uniqFirst (splice2 members c1 c2))) newMembers
      (refillCount size (uniqFirst (splice2 members c1 c2)))) :
    refillMembers members c1 c2 newMembers
      = uniqFirst (splice2 members c1 c2) ++ newMembers
    ∧ (refillMembers members c1 c2 newMembers).Nodup
    ∧ (refillMembers members c1 c2 newMembers).length
      = (uniqFirst (splice2 members c1 c2)).length
        + min (refillCount size (uniqFirst (splice2 members c1 c2)))
            (codeDifference (uniqFirst (splice2 members c1 c2))).length := by
  have hu : (uniqFirst (splice2 members c1 c2)).Nodup := uniqFirst_nodup _
  have hnew : newMembers.Nodup := hsamp.nodup (codeDifference_nodup _)
  have hdisj : List.Disjoint (uniqFirst (splice2 members c1 c2)) newMembers := by
    intro x hxu hxn
    exact mem_codeDifference (hsamp.subset hxn) hxu
  have happ : (uniqFirst (splice2 members c1 c2) ++ newMembers).Nodup :=
    List.nodup_append.mpr ⟨hu, hnew, hdisj⟩
  have heq : refillMembers members c1 c2 newMembers
      = uniqFirst (splice2 members c1 c2) ++ newMembers := by
    rw [refillMembers]
    exact uniqFirst_eq_self happ
  refine ⟨heq, heq ▸ happ, ?_⟩
  rw [heq, List.length_append, hsamp.2]

theorem splice2_length {members : List (List Char)} (h : 2 ≤ members.length)
    (c1 c2 : List Char) : (splice2 members c1 c2).length = members.length := by
  rw [splice2]
  simp only [List.length_cons, List.length_drop]
  omega

/-! ### Eligible-set accumulation lemmas -/

theorem updateEiSet_length_le (prevGuesses : List GuessRecord) :
    ∀ (members : List Combination) (eiSet : List (List Char)),
      (updateEiSet members prevGuesses eiSet).length ≤ eiSet.length + members.length := by
  intro members
  induction members with
  | nil =>
    intro eiSet
    simp [updateEiSet]
  | cons m rest ih =>
    intro eiSet
    rw [show updateEiSet (m :: rest) prevGuesses eiSet
        = updateEiSet rest prevGuesses
            (if (m.calculateFitness prevGuesses).eligible then
              (if eiSet.contains (m.calculateFitness prevGuesses).code then eiSet
               else eiSet ++ [(m.calculateFitness prevGuesses).code])
             else eiSet) from rfl]
    have hstep : (if (m.calculateFitness prevGuesses).eligible then
          (if eiSet.contains (m.calculateFitness prevGuesses).code then eiSet
           else eiSet ++ [(m.calculateFitness prevGuesses).code])
        else eiSet).length ≤ eiSet.length + 1 := by
      split
      · split
        · omega
        · simp
      · omega
    have hrest := ih (if (m.calculateFitness prevGuesses).eligible then
          (if eiSet.contains (m.calculateFitness prevGuesses).code then eiSet
           else eiSet ++ [(m.calculateFitness prevGuesses).code])
        else eiSet)
    simp only [List.length_cons]
    omega

theorem generationStep_length_le (members : List Combination)
    (prevGuesses : List GuessRecord) (eiSet : List (List Char)) (maxGen : Int) :
    ((generationStep members prevGuesses eiSet maxGen).2).length
      ≤ eiSet.length + members.length := by
  rw [generationStep]
  split
  · split
    · exact Nat.le_add_right _ _
    · exact updateEiSet_length_le prevGuesses members eiSet
  · exact updateEiSet_length_le prevGuesses members eiSet

/-! ### Fitness lemmas -/

theorem fitness_fold_components (code : List Char) :
    ∀ (L : List (Nat × GuessRecord)) (acc : Nat × Nat × Nat),
      (L.foldl (fun (acc : Nat × Nat × Nat) p =>
          let testResponse := testCode code p.2.code
          (acc.1 + absDiff testResponse.1 p.2.x,
           acc.2.1 + absDiff testResponse.2 p.2.y,
           acc.2.2 + p.1)) acc).1
        = acc.1 + (L.map fun p => absDiff (testCode code p.2.code).1 p.2.x).sum
      ∧ (L.foldl (fun (acc : Nat × Nat × Nat) p =>
          let testResponse := testCode code p.2.code
          (acc.1 + absDiff testResponse.1 p.2.x,
           acc.2.1 + absDiff testResponse.2 p.2.y,
           acc.2.2 + p.1)) acc).2.1
        = acc.2.1 + (L.map fun p => absDiff (testCode code p.2.code).2 p.2.y).sum := by
  intro L
  induction L with
  | nil =>
    intro acc
    simp
  | cons p rest ih =>
    intro acc
    simp only [List.foldl_cons, List.map_cons, List.sum_cons]
    constructor
    · rw [(ih _).1]
      simp only []
      omega
    · rw [(ih _).2]
      simp only []
      omega

theorem calculateFitness_eligible_of_consistent (self : Combination)
    (prevGuesses : List GuessRecord)
    (h : ∀ r ∈ prevGuesses, absDiff (testCode self.code r.code).1 r.x = 0
        ∧ absDiff (testCode self.code r.code).2 r.y = 0) :
    (self.calculateFitness prevGuesses).eligible = true := by
  have hmem : ∀ p ∈ prevGuesses.enum, p.2 ∈ prevGuesses := by
    intro p hp
    have hg := List.mem_enum_iff_getElem?.mp hp
    exact List.getElem?_mem hg
  have hfold := fitness_fold_components self.code prevGuesses.enum (0, 0, 0)
  have hx : (prevGuesses.enum.foldl (fun (acc : Nat × Nat × Nat) p =>
      let testResponse := testCode self.code p.2.code
      (acc.1 + absDiff testResponse.1 p.2.x,
       acc.2.1 + absDiff testResponse.2 p.2.y,
       acc.2.2 + p.1)) (0, 0, 0)).1 = 0 := by
    rw [hfold.1]
    simp only [Nat.zero_add]
    apply List.sum_eq_zero
    intro z hz
    rcases List.mem_map.mp hz with ⟨p, hp, rfl⟩
    exact (h p.2 (hmem p hp)).1
  have hy : (prevGuesses.enum.foldl (fun (acc : Nat × Nat × Nat) p =>
      let testResponse := testCode self.code p.2.code
      (acc.1 + absDiff testResponse.1 p.2.x,
       acc.2.1 + absDiff testResponse.2 p.2.y,
       acc.2.2 + p.1)) (0, 0, 0)).2.1 = 0 := by
    rw [hfold.2]
    simp only [Nat.zero_add]
    apply List.sum_eq_zero
    intro z hz
    rcases List.mem_map.mp hz with ⟨p, hp, rfl⟩
    exact (h p.2 (hmem p hp)).2
  dsimp only [Combination.calculateFitness]
  rw [if_pos ⟨hx, hy⟩]

/-! ### Argmax-fold lemmas for the guess selector -/

theorem foldlmax_ge_init {α : Type} (f : α → Nat) :
    ∀ (l : List α) (m : Nat), m ≤ l.foldl (fun a g => max a (f g)) m := by
  intro l
  induction l with
  | nil =>
    intro m
    simp
  | cons g t ih =>
    intro m
    simp only [List.foldl_cons]
    exact le_trans (Nat.le_max_left m (f g)) (ih (max m (f g)))

theorem foldlmax_ge_mem {α : Type} (f : α → Nat) :
    ∀ (l : List α) (m : Nat) (g : α), g ∈ l → f g ≤ l.foldl (fun a g => max a (f g)) m := by
  intro l
  induction l with
  | nil =>
    intro m g hg
    simp at hg
  | cons h t ih =>
    intro m g hg
    simp only [List.foldl_cons]
    rcases List.mem_cons.mp hg with rfl | hg
    · exact le_trans (Nat.le_max_right m (f g)) (foldlmax_ge_init f t _)
    · exact ih (max m (f h)) g hg

theorem foldlmax_all_le {α : Type} (f : α → Nat) :
    ∀ (l : List α) (m : Nat), (∀ g ∈ l, f g ≤ m) →
      l.foldl (fun a g => max a (f g)) m = m := by
  intro l
  induction l with
  | nil =>
    intro m _
    rfl
  | cons h t ih =>
    intro m hall
    simp only [List.foldl_cons]
    have h1 : max m (f h) = m :=
      Nat.max_eq_left (hall h (List.mem_cons_self _ _))
    rw [h1]
    exact ih m fun g hg => hall g (List.mem_cons_of_mem h hg)

theorem foldlmax_cases {α : Type} (f : α → Nat) :
    ∀ (l : List α) (m : Nat),
      l.foldl (fun a g => max a (f g)) m = m
        ∨ ∃ g ∈ l, l.foldl (fun a g => max a (f g)) m = f g := by
  intro l
  induction l with
  | nil =>
    intro m
    exact Or.inl rfl
  | cons h t ih =>
    intro m
    simp only [List.foldl_cons]
    rcases ih (max m (f h)) with hc | ⟨g, hg, hgeq⟩
    · by_cases hmf : f h ≤ m
      · exact Or.inl (by rw [hc, Nat.max_eq_left hmf])
      · exact Or.inr ⟨h, List.mem_cons_self _ _,
          by rw [hc, Nat.max_eq_right (by omega)]⟩
    · exact Or.inr ⟨g, List.mem_cons_of_mem h hg, hgeq⟩

theorem argmax_foldl_all_le {α : Type} (f : α → Nat) :
    ∀ (l : List α) (m : Nat) (cur : α), (∀ g ∈ l, f g ≤ m) →
      l.foldl (fun st g => if f g > st.1 then (f g, g) else st) (m, cur) = (m, cur) := by
  intro l
  induction l with
  | nil =>
    intro m cur _
    rfl
  | cons h t ih =>
    intro m cur hall
    simp only [List.foldl_cons]
    rw [if_neg (by
      have := hall h (List.mem_cons_self _ _)
      omega)]
    exact ih m cur fun g hg => hall g (List.mem_cons_of_mem h hg)

theorem argmax_foldl_exists {α : Type} (f : α → Nat) :
    ∀ (l : List α) (m : Nat) (cur : α), (∃ g ∈ l, m < f g) →
      (l.foldl (fun st g => if f g > st.1 then (f g, g) else st) (m, cur)).2
        = (l.find? fun g =>
            decide (l.foldl (fun a g => max a (f g)) m ≤ f g)).getD cur := by
  intro l
  induction l with
  | nil =>
    intro m cur hex
    simp at hex
  | cons h t ih =>
    intro m cur hex
    simp only [List.foldl_cons]
    by_cases hh : f h > m
    · rw [if_pos hh]
      have hmaxm : max m (f h) = f h := by omega
      by_cases hex2 : ∃ g ∈ t, f h < f g
      · have hlhs := ih (f h) h hex2
        have hMgt : f h < t.foldl (fun a g => max a (f g)) (f h) := by
          rcases hex2 with ⟨g, hg, hfg⟩
          have := foldlmax_ge_mem f t (f h) g hg
          omega
        have hpred : (decide (t.foldl (fun a g => max a (f g)) (max m (f h)) ≤ f h)) = false := by
          rw [hmaxm]
          simpa using hMgt
        rw [List.find?_cons_of_neg _ (by simp [hpred])]
        simp only [hmaxm]
        rw [hlhs]
        have hsome : (t.find? fun g =>
            decide (t.foldl (fun a g => max a (f g)) (f h) ≤ f g)).isSome := by
          rcases foldlmax_cases f t (f h) with hc | ⟨g, hg, hgeq⟩
          · omega
          · exact List.find?_isSome.mpr ⟨g, hg, by simp [hgeq]⟩
        rcases Option.isSome_iff_exists.mp hsome with ⟨a, ha⟩
        rw [ha]
        rfl
      · have hall : ∀ g ∈ t, f g ≤ f h := by
          intro g hg
          by_contra hcon
          exact hex2 ⟨g, hg, by omega⟩
        have hstate := argmax_foldl_all_le f t (f h) h hall
        rw [hstate]
        have hM : t.foldl (fun a g => max a (f g)) (max m (f h)) = f h := by
          rw [hmaxm]
          exact foldlmax_all_le f t (f h) hall
        rw [List.find?_cons_of_pos _ (by simp [hM])]
        rfl
    · rw [if_neg hh]
      have hle : f h ≤ m := by omega
      have hex' : ∃ g ∈ t, m < f g := by
        rcases hex with ⟨g, hg, hmg⟩
        rcases List.mem_cons.mp hg with rfl | hg
        · omega
        · exact ⟨g, hg, hmg⟩
      have hmaxm : max m (f h) = m := by omega
      have hMgt : f h < t.foldl (fun a g => max a (f g)) m := by
        rcases hex' with ⟨g, hg, hmg⟩
        have := foldlmax_ge_mem f t m g hg
        omega
      have hpred : (decide (t.foldl (fun a g => max a (f g)) (max m (f h)) ≤ f h)) = false := by
        rw [hmaxm]
        simpa using hMgt
      rw [List.find?_cons_of_neg _ (by simp [hpred])]
      simp only [hmaxm]
      exact ih m cur hex'

theorem chooseNextGuess_spec (eligible : List (List Char)) (hne : eligible ≠ []) :
    chooseNextGuess eligible = firstArgmax eligible
    ∧ chooseNextGuess eligible ∈ eligible
    ∧ splitSum eligible (chooseNextGuess eligible) = maxSplitSum eligible := by
  have hMdef : maxSplitSum eligible
      = eligible.foldl (fun a g => max a (splitSum eligible g)) 0 := rfl
  by_cases hall : ∀ g ∈ eligible, splitSum eligible g ≤ 0
  · have h1 : chooseNextGuess eligible = eligible.headD [] := by
      show (eligible.foldl
        (fun st g => if splitSum eligible g > st.1 then (splitSum eligible g, g) else st)
        (0, eligible.headD [])).2 = _
      rw [argmax_foldl_all_le (splitSum eligible) eligible 0 (eligible.headD []) hall]
    obtain ⟨e0, rest, rfl⟩ : ∃ e0 rest, eligible = e0 :: rest := by
      cases eligible with
      | nil => exact absurd rfl hne
      | cons e0 rest => exact ⟨e0, rest, rfl⟩
    have hhead : (e0 :: rest).headD ([] : List Char) = e0 := rfl
    have hmax : maxSplitSum (e0 :: rest) = 0 := by
      rw [hMdef]
      exact foldlmax_all_le (splitSum (e0 :: rest)) (e0 :: rest) 0 hall
    have hf0 : splitSum (e0 :: rest) e0 = 0 :=
      Nat.le_zero.mp (hall e0 (List.mem_cons_self _ _))
    have hfa : firstArgmax (e0 :: rest) = e0 := by
      rw [firstArgmax, List.find?_cons_of_pos _ (by simp [hf0, hmax])]
      rfl
    rw [h1, hhead, hfa]
    exact ⟨rfl, List.mem_cons_self _ _, by rw [hf0, hmax]⟩
  · have hex : ∃ g ∈ eligible, 0 < splitSum eligible g := by
      push_neg at hall
      rcases hall with ⟨g, hg, hlt⟩
      exact ⟨g, hg, by omega⟩
    have h1 : chooseNextGuess eligible
        = (eligible.find? fun g =>
            decide (eligible.foldl (fun a g => max a (splitSum eligible g)) 0
              ≤ splitSum eligible g)).getD (eligible.headD []) := by
      show (eligible.foldl
        (fun st g => if splitSum eligible g > st.1 then (splitSum eligible g, g) else st)
        (0, eligible.headD [])).2 = _
      exact argmax_foldl_exists (splitSum eligible) eligible 0 (eligible.headD []) hex
    have hsome : (eligible.find? fun g =>
        decide (eligible.foldl (fun a g => max a (splitSum eligible g)) 0
          ≤ splitSum eligible g)).isSome := by
      rcases foldlmax_cases (splitSum eligible) eligible 0 with hc | ⟨g, hg, hgeq⟩
      · rcases hex with ⟨g, hg, hlt⟩
        have := foldlmax_ge_mem (splitSum eligible) eligible 0 g hg
        omega
      · exact List.find?_isSome.mpr ⟨g, hg, by simp [hgeq]⟩
    rcases Option.isSome_iff_exists.mp hsome with ⟨a, ha⟩
    have hcong : (eligible.find? fun g =>
        decide (eligible.foldl (fun a g => max a (splitSum eligible g)) 0
          ≤ splitSum eligible g))
        = eligible.find? fun g => splitSum eligible g == maxSplitSum eligible := by
      apply find?_congr_mem
      intro x hx
      have hle : splitSum eligible x ≤ maxSplitSum eligible := by
        rw [hMdef]
        exact foldlmax_ge_mem (splitSum eligible) eligible 0 x hx
      simp only [← hMdef]
      by_cases hxM : splitSum eligible x = maxSplitSum eligible
      · simp [hxM]
      · have h2 : ¬ maxSplitSum eligible ≤ splitSum eligible x := by omega
        simp [hxM, h2]
    have ha2 : (eligible.find? fun g => splitSum eligible g == maxSplitSum eligible)
        = some a := by
      rw [← hcong]
      exact ha
    have hchoose : chooseNextGuess eligible = a := by
      rw [h1, ha]
      rfl
    have hfa : firstArgmax eligible = a := by
      rw [firstArgmax, ha2]
      rfl
    have hamem : a ∈ eligible := List.mem_of_find?_eq_some ha2
    have haM : splitSum eligible a = maxSplitSum eligible := by
      have hp := List.find?_some
        (p := fun g => splitSum eligible g == maxSplitSum eligible) ha2
      simpa using hp
    rw [hchoose, hfa]
    exact ⟨rfl, hamem, haM⟩

/-! ### Claim C1 -/

/-- C1: for every pair of length-`NUM_FIELDS` codes `A` and `B` over the
alphabet, the scoring oracle is symmetric: `testCode A B` returns the same
(exact, partial) pair as `testCode B A`, including for codes with repeated
symbols. -/
theorem testCode_symmetric (A B : List Char) (hA : isCode A) (hB : isCode B) :
    testCode A B = testCode B A :=
  testCode_comm A B

theorem testCode_symmetric_witness :
    isCode ['A', 'A', 'B', 'B'] ∧ isCode ['A', 'B', 'C', 'A']
    ∧ testCode ['A', 'A', 'B', 'B'] ['A', 'B', 'C', 'A']
      = testCode ['A', 'B', 'C', 'A'] ['A', 'A', 'B', 'B'] :=
  ⟨by decide, by decide,
    testCode_symmetric ['A', 'A', 'B', 'B'] ['A', 'B', 'C', 'A'] (by decide) (by decide)⟩

/-! ### Claim C2 -/

/-- C2: for every non-empty history whose every record stores feedback
`(x, y) = testCode(guess, secret)` for a fixed secret, `calculateFitness` on a
fresh `Combination` whose code equals the secret sets `eligible = true` (both
accumulated difference totals vanish; the predicted feedback
`testCode(secret, guess)` matches the recorded `testCode(guess, secret)` by
the symmetry of the oracle). -/
theorem secret_candidate_eligible (secret : List Char) (prevGuesses : List GuessRecord)
    (hne : prevGuesses ≠ [])
    (hfb : ∀ r ∈ prevGuesses, (r.x, r.y) = testCode r.code secret) :
    ((Combination.mk secret 0 false).calculateFitness prevGuesses).eligible = true := by
  apply calculateFitness_eligible_of_consistent
  intro r hr
  have hsym : testCode secret r.code = testCode r.code secret := testCode_comm _ _
  have hfbr := hfb r hr
  constructor
  · show absDiff (testCode secret r.code).1 r.x = 0
    rw [hsym, ← hfbr]
    simp [absDiff]
  · show absDiff (testCode secret r.code).2 r.y = 0
    rw [hsym, ← hfbr]
    simp [absDiff]

theorem secret_candidate_eligible_witness :
    ([⟨['A', 'B', 'A', 'B'], 2, 0⟩] : List GuessRecord) ≠ []
    ∧ (∀ r ∈ ([⟨['A', 'B', 'A', 'B'], 2, 0⟩] : List GuessRecord),
        (r.x, r.y) = testCode r.code codeAAAA)
    ∧ ((Combination.mk codeAAAA 0 false).calculateFitness
        [⟨['A', 'B', 'A', 'B'], 2, 0⟩]).eligible = true :=
  ⟨by simp, by decide,
    secret_candidate_eligible codeAAAA [⟨['A', 'B', 'A', 'B'], 2, 0⟩] (by simp) (by decide)⟩

/-! ### Claim C4 -/

/-- C4 counterexample: the default probability of the permutation operator is
not 0.05 — the source sets `PERMUTATION_PROBABILITY = 0.1`. -/
theorem permutation_probability_counterexample :
    ¬ PERMUTATION_PROBABILITY = 0.05 := by
  rw [PERMUTATION_PROBABILITY]
  norm_num

/-- C4 amended: the default probability with which each crossover child
undergoes the permutation operator is 0.1; the 0.05 default belongs to the
inversion operator. -/
theorem permutation_probability_default :
    PERMUTATION_PROBABILITY = 0.1 ∧ INVERSION_PROBABILITY = 0.05 :=
  ⟨rfl, rfl⟩

/-! ### Claim C8 -/

/-- C8: for every pair of length-`NUM_FIELDS` codes over the alphabet, the
feedback satisfies `exact + partial ≤ NUM_FIELDS`; both components are
natural numbers by construction. -/
theorem testCode_sum_bound (a b : List Char) (ha : isCode a) (hb : isCode b) :
    (testCode a b).1 + (testCode a b).2 ≤ NUM_FIELDS :=
  testCode_sum_le a b

theorem testCode_sum_bound_witness :
    isCode codeAAAA ∧ isCode codeABCD
    ∧ (testCode codeAAAA codeABCD).1 + (testCode codeAAAA codeABCD).2 ≤ NUM_FIELDS :=
  ⟨by decide, by decide, testCode_sum_bound codeAAAA codeABCD (by decide) (by decide)⟩

/-! ### Claim C10 -/

/-- C10: for every pair of length-`NUM_FIELDS` codes over the alphabet,
`testCode g r` reports `NUM_FIELDS` exact matches exactly when `g` and `r` are
positionwise equal, so the win check of `playNextGuess` fires exactly when the
guess equals the secret. -/
theorem win_iff_guess_eq_secret (g r : List Char) (hg : isCode g) (hr : isCode r) :
    ((testCode g r).1 = NUM_FIELDS ↔ g = r)
    ∧ (winCheck (testCode g r).1 = true ↔ g = r) := by
  have hiff := testCode_fst_eq_iff hg.1 hr.1
  refine ⟨hiff, ?_⟩
  rw [winCheck]
  constructor
  · intro h
    exact hiff.mp (by simpa using h)
  · intro h
    simpa using hiff.mpr h

theorem win_iff_guess_eq_secret_witness :
    isCode codeABCD ∧ isCode codeAAAB
    ∧ (((testCode codeABCD codeAAAB).1 = NUM_FIELDS ↔ codeABCD = codeAAAB)
      ∧ (winCheck (testCode codeABCD codeAAAB).1 = true ↔ codeABCD = codeAAAB)) :=
  ⟨by decide, by decide, win_iff_guess_eq_secret codeABCD codeAAAB (by decide) (by decide)⟩

/-! ### Claim C6 -/

/-- C6: at a generation boundary the loop halts (invokes the callback without
running the body) exactly when (generations remaining ≤ 0 or the eligible set
size equals the cap) and it is not the case that the history holds more than
one guess while the eligible set is still empty; in the override case the loop
continues regardless of the remaining budget. Formalisation note: the source
tests the cap with `eiSet.length == SET_SIZE`, so "has reached its cap" is
read as exact equality. -/
theorem generation_halts_iff (members : List Combination) (prevGuesses : List GuessRecord)
    (eiSet : List (List Char)) (maxGen : Int) :
    (generationStep members prevGuesses eiSet maxGen).1 = true
      ↔ ((maxGen ≤ 0 ∨ eiSet.length = SET_SIZE)
          ∧ ¬(1 < prevGuesses.length ∧ eiSet = [])) := by
  have hempty : eiSet.length < 1 ↔ eiSet = [] := by
    constructor
    · intro h
      exact List.length_eq_zero.mp (by omega)
    · intro h
      subst h
      simp
  rw [generationStep]
  by_cases h1 : maxGen ≤ 0 ∨ eiSet.length = SET_SIZE
  · rw [if_pos h1]
    by_cases h2 : ¬(prevGuesses.length > 1 ∧ eiSet.length < 1)
    · rw [if_pos h2]
      constructor
      · intro _
        refine ⟨h1, fun hcon => h2 ⟨hcon.1, hempty.mpr hcon.2⟩⟩
      · intro _
        rfl
    · rw [if_neg h2]
      constructor
      · intro hfalse
        exact absurd hfalse (by simp)
      · rintro ⟨_, hno⟩
        exfalso
        have hcon := not_not.mp h2
        exact hno ⟨hcon.1, hempty.mp hcon.2⟩
  · rw [if_neg h1]
    constructor
    · intro hfalse
      exact absurd hfalse (by simp)
    · rintro ⟨hor, _⟩
      exact absurd hor h1

/-! ### Claim C7 -/

/-- C7: for every non-empty eligible set, `chooseNextGuess` returns a member
attaining the maximum split sum; ties keep the first member in enumeration
order (it equals the reference first-argmax selector), and a singleton set
yields its single member. -/
theorem chooseNextGuess_max_split (eligible : List (List Char)) (hne : eligible ≠ []) :
    chooseNextGuess eligible ∈ eligible
    ∧ (∀ g ∈ eligible, splitSum eligible g ≤ splitSum eligible (chooseNextGuess eligible))
    ∧ chooseNextGuess eligible = firstArgmax eligible
    ∧ (∀ g, eligible = [g] → chooseNextGuess eligible = g) := by
  rcases chooseNextGuess_spec eligible hne with ⟨hfa, hmem, hM⟩
  refine ⟨hmem, ?_, hfa, ?_⟩
  · intro g hg
    rw [hM]
    exact foldlmax_ge_mem (splitSum eligible) eligible 0 g hg
  · intro g hgeq
    have hmem2 : chooseNextGuess eligible ∈ [g] := hgeq ▸ hmem
    simpa using hmem2

theorem chooseNextGuess_max_split_witness :
    ([codeAAAA, codeABCD] : List (List Char)) ≠ []
    ∧ (chooseNextGuess [codeAAAA, codeABCD] ∈ ([codeAAAA, codeABCD] : List (List Char))
      ∧ (∀ g ∈ ([codeAAAA, codeABCD] : List (List Char)),
          splitSum [codeAAAA, codeABCD] g
            ≤ splitSum [codeAAAA, codeABCD] (chooseNextGuess [codeAAAA, codeABCD]))
      ∧ chooseNextGuess [codeAAAA, codeABCD] = firstArgmax [codeAAAA, codeABCD]
      ∧ (∀ g, ([codeAAAA, codeABCD] : List (List Char)) = [g]
          → chooseNextGuess [codeAAAA, codeABCD] = g)) :=
  ⟨by simp, chooseNextGuess_max_split [codeAAAA, codeABCD] (by simp)⟩

/-! ### Claim C5 -/

/-- C5: after a generation step (children spliced over the first two slots,
codes deduplicated, refilled from the code space by a sample of the still
unused codes), the population holds exactly `POPULATION_SIZE` codes and they
are pairwise distinct. The population entering the step has the invariant
size; the sampled refill obeys underscore's `_.sample` contract. -/
theorem population_size_invariant (members : List (List Char)) (c1 c2 : List Char)
    (newMembers : List (List Char))
    (hlen : members.length = POPULATION_SIZE)
    (hsamp : IsSample (codeDifference (uniqFirst (splice2 members c1 c2))) newMembers
      (refillCount POPULATION_SIZE (uniqFirst (splice2 members c1 c2)))) :
    (refillMembers members c1 c2 newMembers).length = POPULATION_SIZE
    ∧ (refillMembers members c1 c2 newMembers).Nodup := by
  rcases refillMembers_spec POPULATION_SIZE members c1 c2 newMembers hsamp with
    ⟨_, hnd, hlen2⟩
  refine ⟨?_, hnd⟩
  rw [hlen2]
  have hP : POPULATION_SIZE = 150 := rfl
  have hsplice : (splice2 members c1 c2).length = members.length :=
    splice2_length (by omega) c1 c2
  have hu_le : (uniqFirst (splice2 members c1 c2)).length ≤ POPULATION_SIZE := by
    have h := uniqFirst_length_le (splice2 members c1 c2)
    omega
  have hdiff := codeDifference_length_ge (uniqFirst (splice2 members c1 c2))
  rw [allCodes_length] at hdiff
  rw [refillCount] at hlen2 ⊢
  rw [Nat.min_eq_left (by omega)]
  omega

theorem population_size_invariant_witness :
    ((allCodes.take 150).length = POPULATION_SIZE
      ∧ IsSample
          (codeDifference (uniqFirst (splice2 (allCodes.take 150) codeAAAA codeAAAB)))
          []
          (refillCount POPULATION_SIZE
            (uniqFirst (splice2 (allCodes.take 150) codeAAAA codeAAAB))))
    ∧ ((refillMembers (allCodes.take 150) codeAAAA codeAAAB []).length = POPULATION_SIZE
      ∧ (refillMembers (allCodes.take 150) codeAAAA codeAAAB []).Nodup) := by
  have hlen : (allCodes.take 150).length = POPULATION_SIZE := by decide
  have hsplice : splice2 (allCodes.take 150) codeAAAA codeAAAB = allCodes.take 150 := by
    decide
  have hnd : (allCodes.take 150).Nodup := (List.take_sublist _ _).nodup allCodes_nodup
  have hu : uniqFirst (splice2 (allCodes.take 150) codeAAAA codeAAAB)
      = allCodes.take 150 := by
    rw [hsplice]
    exact uniqFirst_eq_self hnd
  have hn : refillCount POPULATION_SIZE
      (uniqFirst (splice2 (allCodes.take 150) codeAAAA codeAAAB)) = 0 := by
    rw [refillCount, hu, hlen]
    exact Nat.sub_self _
  have hsamp : IsSample
      (codeDifference (uniqFirst (splice2 (allCodes.take 150) codeAAAA codeAAAB)))
      []
      (refillCount POPULATION_SIZE
        (uniqFirst (splice2 (allCodes.take 150) codeAAAA codeAAAB))) := by
    refine ⟨List.nil_subperm, ?_⟩
    rw [hn]
    simp
  exact ⟨⟨hlen, hsamp⟩, population_size_invariant (allCodes.take 150) codeAAAA codeAAAB []
    hlen hsamp⟩

/-! ### Claim C3 -/

/-- C3 counterexample: a generation step that starts below the cap can push the
eligible set far beyond it. From an empty eligible set, one guess AAAA with
recorded feedback (0, 0) in the history (the feedback `testCode` produces when
the secret avoids the symbol A), and a population of 150 distinct codes over
B..F (all of which are consistent with that feedback), the step runs
(`halted = false`) and leaves 150 > `SET_SIZE` = 110 codes in the set: the
push loop checks duplicates but never the cap. -/
theorem eligibleSet_cap_counterexample :
    (generationStep membersNoA historyAAAA [] MAXGEN).1 = false
    ∧ SET_SIZE < ((generationStep membersNoA historyAAAA [] MAXGEN).2).length := by
  constructor
  · decide
  · decide

/-- C3 amended: the eligible set accumulated by a generation step is not capped
at `SET_SIZE`; it is only bounded by its previous size plus the population
size, because the dedup-checked push loop has no cap test and the cap is
examined only at generation boundaries (and only for exact equality, see the
halting condition). -/
theorem eligibleSet_growth_bound (members : List Combination)
    (prevGuesses : List GuessRecord) (eiSet : List (List Char)) (maxGen : Int) :
    ((generationStep members prevGuesses eiSet maxGen).2).length
      ≤ eiSet.length + members.length :=
  generationStep_length_le members prevGuesses eiSet maxGen

/-! ### Claim C9 -/

theorem bigUniq : uniqFirst (splice2 membersBig codeAAAA codeAAAA) = [codeAAAA] := by
  decide

theorem bigDiff_length :
    (codeDifference (uniqFirst (splice2 membersBig codeAAAA codeAAAA))).length = 1295 := by
  rw [bigUniq]
  decide

theorem bigSample_isSample :
    IsSample (codeDifference (uniqFirst (splice2 membersBig codeAAAA codeAAAA)))
      (codeDifference (uniqFirst (splice2 membersBig codeAAAA codeAAAA)))
      (refillCount 1300 (uniqFirst (splice2 membersBig codeAAAA codeAAAA))) := by
  refine ⟨List.Subperm.refl _, ?_⟩
  rw [bigDiff_length, bigUniq]
  rfl

/-- C9 counterexample: the refill step has no `ExhaustedCodeSpace` error. For
a population of 1300 copies of AAAA (size parameter 1300), the refill requests
`1300 - 1 = 1299` unused codes while only 1295 remain; underscore's `_.sample`
silently returns all 1295 and the operation completes with a population of
1296 < 1300 codes — smaller than the configured fixed size, with no error
surfaced. -/
theorem refill_exhaustion_counterexample :
    (codeDifference (uniqFirst (splice2 membersBig codeAAAA codeAAAA))).length
      < refillCount 1300 (uniqFirst (splice2 membersBig codeAAAA codeAAAA))
    ∧ IsSample (codeDifference (uniqFirst (splice2 membersBig codeAAAA codeAAAA)))
        (codeDifference (uniqFirst (splice2 membersBig codeAAAA codeAAAA)))
        (refillCount 1300 (uniqFirst (splice2 membersBig codeAAAA codeAAAA)))
    ∧ (refillMembers membersBig codeAAAA codeAAAA
        (codeDifference (uniqFirst (splice2 membersBig codeAAAA codeAAAA)))).length
      < 1300 := by
  refine ⟨?_, bigSample_isSample, ?_⟩
  · rw [bigDiff_length, bigUniq]
    decide
  · have hspec := (refillMembers_spec 1300 membersBig codeAAAA codeAAAA
      (codeDifference (uniqFirst (splice2 membersBig codeAAAA codeAAAA)))
      bigSample_isSample).2.2
    rw [hspec, bigDiff_length, bigUniq]
    decide

/-- C9 amended: when the refill requests more unused codes than remain, no
error is raised; the operation always completes, the population receiving the
deduplicated codes plus `min(requested, remaining)` sampled codes — silently
fewer than the configured size in the exhausted case. (Under the default
configuration, population 150 against a code space of 1296, exhaustion cannot
occur; see the C5 theorem.) -/
theorem refill_silent_completion (size : Nat) (members : List (List Char))
    (c1 c2 : List Char) (newMembers : List (List Char))
    (hsamp : IsSample (codeDifference (uniqFirst (splice2 members c1 c2))) newMembers
      (refillCount size (uniqFirst (splice2 members c1 c2)))) :
    (refillMembers members c1 c2 newMembers).length
      = (uniqFirst (splice2 members c1 c2)).length
        + min (refillCount size (uniqFirst (splice2 members c1 c2)))
            (codeDifference (uniqFirst (splice2 members c1 c2))).length :=
  (refillMembers_spec size members c1 c2 newMembers hsamp).2.2

theorem refill_silent_completion_witness :
    IsSample (codeDifference (uniqFirst (splice2 membersBig codeAAAA codeAAAA)))
      (codeDifference (uniqFirst (splice2 membersBig codeAAAA codeAAAA)))
      (refillCount 1300 (uniqFirst (splice2 membersBig codeAAAA codeAAAA)))
    ∧ (refillMembers membersBig codeAAAA codeAAAA
        (codeDifference (uniqFirst (splice2 membersBig codeAAAA codeAAAA)))).length
      = (uniqFirst (splice2 membersBig codeAAAA codeAAAA)).length
        + min (refillCount 1300 (uniqFirst (splice2 membersBig codeAAAA codeAAAA)))
            (codeDifference (uniqFirst (splice2 membersBig codeAAAA codeAAAA))).length :=
  ⟨bigSample_isSample,
    refill_silent_completion 1300 membersBig codeAAAA codeAAAA
      (codeDifference (uniqFirst (splice2 membersBig codeAAAA codeAAAA)))
      bigSample_isSample⟩
